import Mathlib

/-! # Verification of the skewtpy Wyoming-sounding retrieval pipeline

Shallow embedding of `src/skewtpy/wyoming.py`: the availability prober
`sounding_exists`, the URL construction, and the `<pre>`-block extraction and
line-classification pipeline of `get_wyoming_sounding`.  Strings are modelled
as `List Char`; the transport layer is modelled as an `Option` response body
(`none` = any `requests.RequestException`, including non-2xx raised by
`raise_for_status`).  The fixed-width numeric conversion performed by
`pandas.read_fwf` is not part of this repository and is modelled from the
spec where marked.
-/

set_option maxRecDepth 100000

namespace SkewtPy

/-- Character list of a string literal. -/
def chars (s : String) : List Char := s.data

/-- Python whitespace (the characters relevant to `str.strip`, `str.split`,
and the regex class `\s`): space, tab, and the control/unicode whitespace
code points. -/
def isPySpace (c : Char) : Bool :=
  c = ' ' || c = '\t' || c = '\n' || c = '\r' || c = Char.ofNat 11 ||
  c = Char.ofNat 12 || c = Char.ofNat 28 || c = Char.ofNat 29 ||
  c = Char.ofNat 30 || c = Char.ofNat 31 || c = Char.ofNat 133 ||
  c = Char.ofNat 160 || c = Char.ofNat 8232 || c = Char.ofNat 8233

/-- Line boundaries recognized by Python `str.splitlines`. -/
def isLineBreak (c : Char) : Bool :=
  c = '\n' || c = '\r' || c = Char.ofNat 11 || c = Char.ofNat 12 ||
  c = Char.ofNat 28 || c = Char.ofNat 29 || c = Char.ofNat 30 ||
  c = Char.ofNat 133 || c = Char.ofNat 8232 || c = Char.ofNat 8233

theorem isPySpace_of_isLineBreak {c : Char} (h : isLineBreak c = true) :
    isPySpace c = true := by
  simp only [isLineBreak, Bool.or_eq_true, decide_eq_true_eq, or_assoc] at h
  rcases h with h | h | h | h | h | h | h | h | h | h <;> subst h <;> decide

/-- Python `str.lstrip()`. -/
def lstrip (l : List Char) : List Char := l.dropWhile isPySpace

/-- Python `str.rstrip()`. -/
def rstrip (l : List Char) : List Char := (l.reverse.dropWhile isPySpace).reverse

/-- Python `str.strip()`. -/
def strip (l : List Char) : List Char := rstrip (lstrip l)

/-- Worker for `splitlines`: `acc` holds the (reversed) current line; a
`\r\n` pair consumes both characters. -/
def splitlinesGo : List Char → List Char → List (List Char)
  | [], acc => [acc.reverse]
  | c :: rest, acc =>
      if isLineBreak c then
        match rest with
        | [] => [acc.reverse]
        | d :: rest2 =>
            if c = '\r' && d = '\n' then
              acc.reverse :: (if rest2.isEmpty then [] else splitlinesGo rest2 [])
            else acc.reverse :: splitlinesGo (d :: rest2) []
      else splitlinesGo rest (c :: acc)

/-- Python `str.splitlines()`: split at line boundaries (with `\r\n` counting
as a single boundary); a trailing boundary does not produce a final empty
line, and the empty string yields no lines. -/
def splitlines (l : List Char) : List (List Char) :=
  if l.isEmpty then [] else splitlinesGo l []

/-- Python substring containment `pat in hay`. -/
def containsSub (pat : List Char) : List Char → Bool
  | [] => pat.isEmpty
  | c :: rest => pat.isPrefixOf (c :: rest) || containsSub pat rest

/-- Python `"\n".join(lines)`. -/
def joinNL : List (List Char) → List Char
  | [] => []
  | [l] => l
  | l :: ls => l ++ '\n' :: joinNL ls

/-- Worker for `splitWS`: `acc` holds the (reversed) current token. -/
def splitWSAux : List Char → List Char → List (List Char)
  | [], acc => if acc.isEmpty then [] else [acc.reverse]
  | c :: rest, acc =>
      if isPySpace c then
        if acc.isEmpty then splitWSAux rest [] else acc.reverse :: splitWSAux rest []
      else splitWSAux rest (c :: acc)

/-- Python `str.split()` with no argument: split on whitespace runs,
discarding empty tokens. -/
def splitWS (l : List Char) : List (List Char) := splitWSAux l []

/-- ASCII lower-casing, as performed by `re.IGNORECASE` on the tag letters. -/
def lowerCh (c : Char) : Char :=
  if 65 ≤ c.toNat && c.toNat ≤ 90 then Char.ofNat (c.toNat + 32) else c

/-- Case-insensitive prefix test; the pattern is given in lower case. -/
def isPrefixCI : List Char → List Char → Bool
  | [], _ => true
  | _ :: _, [] => false
  | p :: ps, c :: cs => (lowerCh c = p) && isPrefixCI ps cs

/-- Consume characters up to and including the first `>` (the regex piece
`[^>]*>` of `<pre[^>]*>`); `none` when no `>` follows. -/
def breakAtGT : List Char → Option (List Char)
  | [] => none
  | c :: rest => if c = '>' then some rest else breakAtGT rest

/-- Text before the first case-insensitive `</pre>` (the lazy `(.*?)</pre>`);
`none` when no closing tag occurs. -/
def beforeCloseCI : List Char → Option (List Char)
  | [] => none
  | c :: rest =>
      if isPrefixCI (chars ("</pre>")) (c :: rest) then some []
      else (beforeCloseCI rest).map (fun t => c :: t)

/-- `re.search(r"<pre[^>]*>(.*?)</pre>", body, re.DOTALL | re.IGNORECASE)`:
scan left to right for an opening `<pre` tag (attributes allowed) that is
followed by a closing `</pre>`; return the first match's inner group. -/
def findPre : List Char → Option (List Char)
  | [] => none
  | c :: rest =>
      if isPrefixCI (chars ("<pre")) (c :: rest) then
        match breakAtGT (List.drop 3 rest) with
        | some after =>
            match beforeCloseCI after with
            | some content => some content
            | none => findPre rest
        | none => findPre rest
      else findPre rest

/-- `re.match(r"^\s*-{5,}\s*$", line)`: optional whitespace, five or more
dashes, optional whitespace, nothing else. -/
def isSep (ln : List Char) : Bool :=
  let t := ln.dropWhile isPySpace
  let d := t.takeWhile (fun c => c = '-')
  decide (5 ≤ d.length) && (t.dropWhile (fun c => c = '-')).all isPySpace

/-- The two "no data" phrases tested by `sounding_exists` (the first one is
spelled with an apostrophe in the source). -/
def cantGet : List Char := ['C', 'a', 'n', Char.ofNat 39, 't', ' ', 'g', 'e', 't']

def noDataAvailable : List Char := chars ("No data available")

def hasNoDataMarker (b : List Char) : Bool :=
  containsSub cantGet b || containsSub noDataAvailable b

/-- `sounding_exists` (wyoming.py lines 42-55).  The transport outcome is
`none` for any `requests.RequestException` (timeout, DNS, reset, or the
non-2xx status raised by `raise_for_status`), `some body` otherwise. -/
def sounding_exists : Option (List Char) → Bool × Option (List Char)
  | none => (false, none)
  | some body =>
      if hasNoDataMarker body then (false, some body)
      else if (strip body).length < 200 then (false, some body)
      else (true, some body)

/-- The stop markers ending the data section (wyoming.py line 165). -/
def stopMarkers : List (List Char) :=
  [chars ("###"), chars ("Station information"), chars ("Observations")]

def hasStop (ln : List Char) : Bool := stopMarkers.any (fun mk => containsSub mk ln)

/-- The truncation loop of wyoming.py lines 166-172: cut at the first line
containing a stop marker (exclusive). -/
def truncateStop (ls : List (List Char)) : List (List Char) :=
  match ls.findIdx? hasStop with
  | none => ls
  | some cut => ls.take cut

/-- The filter of wyoming.py lines 174-177: keep non-blank, non-separator
lines. -/
def keepLine (ln : List Char) : Bool := !(strip ln).isEmpty && !isSep ln

/-- `header_line = lines[header_idx].strip()` (line 155); total here, the
out-of-range case is handled by the caller. -/
def headerLineOf (lines : List (List Char)) (idx : Nat) : List Char :=
  strip (lines.getD idx [])

/-- `units_line = lines[header_idx+1].strip() if header_idx+1 < len(lines)
else ""` (line 156). -/
def unitsLineOf (lines : List (List Char)) (idx : Nat) : List Char :=
  if idx + 1 < lines.length then strip (lines.getD (idx + 1) []) else []

/-- `data_start` after the optional separator-row advance (lines 158-161). -/
def dataStartOf (lines : List (List Char)) (idx : Nat) : Nat :=
  if idx + 2 < lines.length && isSep (lines.getD (idx + 2) []) then idx + 3
  else idx + 2

/-- The surviving data lines (lines 163-177): drop everything before
`data_start`, truncate at the first stop marker, filter blank and separator
lines. -/
def survivingLines (lines : List (List Char)) (idx : Nat) : List (List Char) :=
  (truncateStop (lines.drop (dataStartOf lines idx))).filter keepLine

/-- A parsed table cell: the explicit missing-value marker, an integer, or a
decimal written as a scaled integer (mantissa `m`, scale `e`, denoting
`m / 10 ^ e`). -/
inductive Cell
  | na : Cell
  | intN : Int → Cell
  | decN : Int → Nat → Cell
deriving DecidableEq

/-- Per-column inferred type. -/
inductive ColType
  | untyped : ColType
  | intType : ColType
  | decType : ColType
deriving DecidableEq

def isDigit (c : Char) : Bool := 48 ≤ c.toNat && c.toNat ≤ 57

def digitsVal (ds : List Char) : Nat :=
  ds.foldl (fun a c => a * 10 + (c.toNat - 48)) 0

def intOfSign (neg : Bool) (n : Nat) : Int := if neg then -(n : Int) else (n : Int)

/-- Split a leading sign character off a token. -/
def stripSign (t : List Char) : Bool × List Char :=
  match t with
  | [] => (false, [])
  | c :: r => if c = '-' then (true, r) else if c = '+' then (false, r) else (false, t)

/-- Numeric conversion of an unsigned token body: a run of digits is an
integer, digits split by one decimal point (with at least one digit) a
decimal, anything else missing. -/
def parseBody (neg : Bool) (body : List Char) : Cell :=
  if body.isEmpty then Cell.na
  else if body.all isDigit then Cell.intN (intOfSign neg (digitsVal body))
  else
    let ip := body.takeWhile isDigit
    match body.dropWhile isDigit with
    | d :: fp =>
        if d = '.' && fp.all isDigit && !(ip.isEmpty && fp.isEmpty) then
          Cell.decN (intOfSign neg (digitsVal (ip ++ fp))) fp.length
        else Cell.na
    | [] => Cell.na

/-- Modelled from the spec: the best-effort numeric conversion that
`pandas.read_fwf` applies to each fixed-width token (wyoming.py line 185
delegates to the pandas library, which is not part of this repository).
Per the spec's numeric semantics, a blank or non-numeric field becomes the
explicit missing-value marker, an integer-shaped field an integer, and a
decimal-shaped field a decimal. -/
def parseCell (tok : List Char) : Cell :=
  parseBody (stripSign tok).1 (stripSign tok).2

def isNA : Cell → Bool
  | Cell.na => true
  | _ => false

def pow10 : Nat → Int
  | 0 => 1
  | n + 1 => 10 * pow10 n

/-- A cell holding an integral value (`2` or `2.0`, but not `2.5`). -/
def cellIntegral : Cell → Bool
  | Cell.na => false
  | Cell.intN _ => true
  | Cell.decN m e => decide (m % pow10 e = 0)

/-- Modelled from the spec: per-column dtype inference of `pandas.read_fwf`
(not part of this repository) — integer if all non-missing values are
integral, decimal otherwise, untyped when the column has no non-missing
value. -/
def inferColType (col : List Cell) : ColType :=
  let vs := col.filter (fun c => !isNA c)
  if vs.isEmpty then ColType.untyped
  else if vs.all cellIntegral then ColType.intType else ColType.decType

/-- The output table: column names, rows of cells, inferred column types,
and the units metadata stored in `df.attrs["units"]`. -/
structure Table where
  colnames : List (List Char)
  rows : List (List Cell)
  colTypes : List ColType
  units : List Char
deriving DecidableEq

/-- Worker detecting fixed-width column ranges: `i` is the current position,
the third argument the start of an open run of non-gap positions; `true`
entries of the mask are all-whitespace positions. -/
def runsAux : List Bool → Nat → Option Nat → List (Nat × Nat)
  | [], _, none => []
  | [], i, some s => [(s, i)]
  | b :: rest, i, none =>
      if b then runsAux rest (i + 1) none else runsAux rest (i + 1) (some i)
  | b :: rest, i, some s =>
      if b then (s, i) :: runsAux rest (i + 1) none else runsAux rest (i + 1) (some s)

/-- Modelled from the spec: `pandas.read_fwf(StringIO(data_text), header=None,
names=colnames)` (wyoming.py line 185; the pandas fixed-width reader is not
part of this repository).  Column boundaries are the maximal character-column
ranges that are not whitespace in every row (rows implicitly padded with
spaces); each field is trimmed and best-effort converted by `parseCell`; the
row count is the number of lines of the data text. -/
def read_fwf (text : List Char) (names : List (List Char)) : Table :=
  let rws := splitlines text
  let width := rws.foldl (fun a r => max a r.length) 0
  let mask := (List.range width).map (fun p => rws.all (fun r => isPySpace (r.getD p ' ')))
  let specs := runsAux mask 0 none
  let cells := rws.map (fun r =>
    specs.map (fun se => parseCell (strip ((r.drop se.1).take (se.2 - se.1)))))
  let types := (List.range specs.length).map
    (fun j => inferColType (cells.map (fun row => row.getD j Cell.na)))
  { colnames := names, rows := cells, colTypes := types, units := [] }

/-- The failure modes of one retrieval call: the three descriptive
`ValueError`s of wyoming.py (lines 141, 150, 181) and the raw `IndexError`
from the unguarded `lines[header_idx]` access at line 155. -/
inductive WErr
  | unavailable : WErr
  | noPre : WErr
  | noData : WErr
  | indexErr : WErr
deriving DecidableEq

/-- `get_wyoming_sounding` from the HTTP response on (wyoming.py lines
138-188).  The URL construction and the single network call are modelled by
the `resp` argument (see `buildUrl` and `sounding_exists`).  When the
availability flag is true the prober always returns the body, so the
`getD []` default is never used. -/
def get_wyoming (resp : Option (List Char)) (header_idx : Nat) : Except WErr Table :=
  match sounding_exists resp with
  | (false, _) => Except.error WErr.unavailable
  | (true, ro) =>
      let body := ro.getD []
      match findPre body with
      | none => Except.error WErr.noPre
      | some block =>
          let lines := splitlines block
          if header_idx < lines.length then
            let header_line := headerLineOf lines header_idx
            let units_line := unitsLineOf lines header_idx
            let data_lines := survivingLines lines header_idx
            let data_text := strip (joinNL data_lines)
            if data_text.isEmpty then Except.error WErr.noData
            else
              let t := read_fwf data_text (splitWS header_line)
              Except.ok { t with units := units_line }
          else Except.error WErr.indexErr

/-- Decimal digit character. -/
def digitChar (n : Nat) : Char := Char.ofNat (48 + n)

/-- Decimal digits of `n`, most significant first; the first argument is
structural fuel (`n` itself suffices). -/
def natDigitsAux : Nat → Nat → List Char
  | 0, _ => []
  | _ + 1, 0 => []
  | fuel + 1, n + 1 => natDigitsAux fuel ((n + 1) / 10) ++ [digitChar ((n + 1) % 10)]

/-- Python `str(n)` / `f"{n}"` for a non-negative integer: the decimal
representation without padding. -/
def natRepr (n : Nat) : List Char := if n = 0 then ['0'] else natDigitsAux n n

/-- Python `f"{n:02d}"` for a non-negative integer: zero-padded to a minimum
width of two. -/
def pad2 (n : Nat) : List Char := if n < 10 then '0' :: natRepr n else natRepr n

/-- The request URL of wyoming.py lines 129-136. -/
def buildUrl (year month day hour station : Nat) (region : List Char) : List Char :=
  chars ("https://weather.uwyo.edu/cgi-bin/sounding") ++ '?' ::
    (chars ("region=") ++ region ++ chars ("&TYPE=TEXT%3ALIST&YEAR=") ++ natRepr year ++
      chars ("&MONTH=") ++ pad2 month ++ chars ("&FROM=") ++ (pad2 day ++ pad2 hour) ++
      chars ("&TO=") ++ (pad2 day ++ pad2 hour) ++ chars ("&STNM=") ++ natRepr station)

/-- Everything after the first `?` of a URL. -/
def dropThroughQ : List Char → List Char
  | [] => []
  | c :: rest => if c = '?' then rest else dropThroughQ rest

def splitAmpAux : List Char → List Char → List (List Char)
  | [], acc => [acc.reverse]
  | c :: rest, acc =>
      if c = '&' then acc.reverse :: splitAmpAux rest [] else splitAmpAux rest (c :: acc)

/-- Split a query string at `&`. -/
def splitAmp (l : List Char) : List (List Char) := splitAmpAux l []

/-- Plain prefix test on character lists. -/
def isPrefixCh : List Char → List Char → Bool
  | [], _ => true
  | _ :: _, [] => false
  | p :: ps, c :: cs => (p = c) && isPrefixCh ps cs

/-- The value of query parameter `key` in `url` (the text after `key=` in the
first matching `&`-separated entry of the query string). -/
def paramValue (url key : List Char) : Option (List Char) :=
  (splitAmp (dropThroughQ url)).findSome? (fun e =>
    if isPrefixCh (key ++ ['=']) e then some (e.drop (key.length + 1)) else none)

/-! ## Specification-side predicates

Independent formulations of the spec's wording, to be compared with the
computable embeddings above. -/

/-- The spec's separator line: five or more consecutive dashes, optionally
surrounded by whitespace, nothing else. -/
def SepSpec (ln : List Char) : Prop :=
  ∃ u n v, (∀ c ∈ u, isPySpace c = true) ∧ (∀ c ∈ v, isPySpace c = true) ∧
    5 ≤ n ∧ ln = u ++ List.replicate n '-' ++ v

/-- The spec's blank line: empty or whitespace-only. -/
def BlankSpec (ln : List Char) : Prop := ∀ c ∈ ln, isPySpace c = true

instance (l : List Char) : Decidable (BlankSpec l) :=
  inferInstanceAs (Decidable (∀ c ∈ l, isPySpace c = true))

/-- The unsigned part of the spec's numeric field shape: a non-empty run of
digits, or digits split by one decimal point with at least one digit. -/
def NumBodySpec (body : List Char) : Prop :=
  (body ≠ [] ∧ ∀ c ∈ body, isDigit c = true) ∨
  (∃ ip fp, body = ip ++ '.' :: fp ∧ (∀ c ∈ ip, isDigit c = true) ∧
    (∀ c ∈ fp, isDigit c = true) ∧ (ip ≠ [] ∨ fp ≠ []))

/-- The spec's numeric field shape: an optional sign followed by a run of
digits (integer) or by digits with one decimal point and at least one digit
(decimal). -/
def NumericTokSpec (tok : List Char) : Prop :=
  ∃ body, (tok = body ∨ tok = '-' :: body ∨ tok = '+' :: body) ∧ NumBodySpec body

/-! ## Concrete response fixtures -/

/-- An available response whose preformatted block carries a title line, a
header line, a units line with surrounding whitespace, a separator rule, two
data rows, and a trailing station-information line. -/
def w1 : List Char :=
  chars ("<html>") ++ List.replicate 200 'x' ++
  chars ("<pre>\nTITLE\n PRES  HGHT  TEMP\n   hPa    m     C  \n ----------- \n 1000.0  111   25.3\n  925.0  802  1.5\nStation information junk\n</pre></html>")

/-- The preformatted block of `w1`. -/
def blk1 : List Char := (findPre w1).getD []

/-- The table parsed from `w1`. -/
def T1 : Table :=
  match get_wyoming (some w1) 2 with
  | Except.ok t => t
  | Except.error _ => { colnames := [], rows := [], colTypes := [], units := [] }

/-- An available response whose data lines are all blank once the trailing
station-information section is cut. -/
def w2 : List Char :=
  chars ("<html>") ++ List.replicate 200 'x' ++
  chars ("<pre>\nTITLE\nHDR\nUNITS\n-----\n\n   \nStation information\n</pre></html>")

/-- The preformatted block of `w2`. -/
def blk2 : List Char := (findPre w2).getD []

/-- An available response whose preformatted block has a single line, fewer
than the default header index. -/
def w4 : List Char :=
  chars ("<html>") ++ List.replicate 200 'x' ++ chars ("<pre>only one line</pre></html>")

/-! ## Lemmas: `splitlines` and `joinNL` -/

theorem splitlinesGo_newline (t acc : List Char) :
    splitlinesGo ('\n' :: t) acc =
      acc.reverse :: (if t.isEmpty then [] else splitlinesGo t []) := by
  have h1 : isLineBreak ('\n') = true := rfl
  have h2 : ('\n' : Char) ≠ ('\r' : Char) := by decide
  cases t with
  | nil => simp [splitlinesGo, h1]
  | cons d t' => simp [splitlinesGo, h1, h2]

theorem splitlinesGo_cons {c : Char} (h : isLineBreak c = false) (t acc : List Char) :
    splitlinesGo (c :: t) acc = splitlinesGo t (c :: acc) := by
  cases t with
  | nil => simp [splitlinesGo, h]
  | cons d t' => simp [splitlinesGo, h]

theorem splitlinesGo_no_break (l : List Char)
    (h : ∀ c ∈ l, isLineBreak c = false) :
    ∀ acc, splitlinesGo l acc = [acc.reverse ++ l] := by
  induction l with
  | nil => intro acc; simp [splitlinesGo]
  | cons c l' ih =>
      intro acc
      rw [splitlinesGo_cons (h c (List.mem_cons_self c l'))]
      rw [ih (fun x hx => h x (List.mem_cons_of_mem c hx))]
      simp

theorem splitlinesGo_append_newline (m : List Char)
    (hm : ∀ c ∈ m, isLineBreak c = false) :
    ∀ (t acc : List Char),
      splitlinesGo (m ++ '\n' :: t) acc =
        (acc.reverse ++ m) :: (if t.isEmpty then [] else splitlinesGo t []) := by
  induction m with
  | nil => intro t acc; simp [splitlinesGo_newline]
  | cons c m' ih =>
      intro t acc
      rw [List.cons_append, splitlinesGo_cons (hm c (List.mem_cons_self c m'))]
      rw [ih (fun x hx => hm x (List.mem_cons_of_mem c hx))]
      simp

theorem splitlinesGo_mem_all :
    ∀ (n : Nat) (s : List Char), s.length ≤ n → ∀ (acc l : List Char),
      (∀ c ∈ acc, isLineBreak c = false) → l ∈ splitlinesGo s acc →
      ∀ c ∈ l, isLineBreak c = false := by
  intro n
  induction n with
  | zero =>
      intro s hs acc l hacc hl
      have hs0 : s = [] := List.length_eq_zero.mp (Nat.le_zero.mp hs)
      subst hs0
      simp [splitlinesGo] at hl
      subst hl
      intro c hc
      exact hacc c (List.mem_reverse.mp hc)
  | succ n ih =>
      intro s hs acc l hacc hl
      cases s with
      | nil =>
          simp [splitlinesGo] at hl
          subst hl
          intro c hc
          exact hacc c (List.mem_reverse.mp hc)
      | cons c rest =>
          by_cases hc : isLineBreak c = true
          · cases rest with
            | nil =>
                simp [splitlinesGo, hc] at hl
                subst hl
                intro x hx
                exact hacc x (List.mem_reverse.mp hx)
            | cons d rest2 =>
                simp only [splitlinesGo, hc, if_true] at hl
                split at hl
                · rcases List.mem_cons.mp hl with h | h
                  · subst h
                    intro x hx
                    exact hacc x (List.mem_reverse.mp hx)
                  · split at h
                    · simp at h
                    · refine ih rest2 ?_ [] l (by simp) h
                      simp at hs
                      omega
                · rcases List.mem_cons.mp hl with h | h
                  · subst h
                    intro x hx
                    exact hacc x (List.mem_reverse.mp hx)
                  · refine ih (d :: rest2) ?_ [] l (by simp) h
                    simp at hs ⊢
                    omega
          · have hc' : isLineBreak c = false := by
              cases hb : isLineBreak c
              · rfl
              · exact absurd hb hc
            rw [splitlinesGo_cons hc'] at hl
            refine ih rest ?_ (c :: acc) l ?_ hl
            · simp at hs; omega
            · intro x hx
              rcases List.mem_cons.mp hx with h | h
              · subst h; exact hc'
              · exact hacc x h

theorem mem_splitlines_all {s l : List Char} (hl : l ∈ splitlines s) :
    ∀ c ∈ l, isLineBreak c = false := by
  unfold splitlines at hl
  split at hl
  · simp at hl
  · exact splitlinesGo_mem_all s.length s (Nat.le_refl _) [] l (by simp) hl

theorem joinNL_cons_of_ne_nil {ls : List (List Char)} (h : ls ≠ []) (l : List Char) :
    joinNL (l :: ls) = l ++ '\n' :: joinNL ls := by
  cases ls with
  | nil => exact absurd rfl h
  | cons b ls' => rfl

theorem joinNL_concat_ne_nil {a : List Char} (ha : a ≠ []) (ms : List (List Char)) :
    joinNL (ms ++ [a]) ≠ [] := by
  cases ms with
  | nil => simpa [joinNL] using ha
  | cons m ms' =>
      rw [List.cons_append, joinNL_cons_of_ne_nil (by simp)]
      simp

theorem mem_joinNL_of_mem {ls : List (List Char)} {l : List Char} {c : Char}
    (hls : l ∈ ls) (hc : c ∈ l) : c ∈ joinNL ls := by
  induction ls with
  | nil => simp at hls
  | cons m ms ih =>
      cases ms with
      | nil =>
          simp at hls
          subst hls
          simpa [joinNL] using hc
      | cons b ms' =>
          rw [joinNL_cons_of_ne_nil (by simp)]
          rcases List.mem_cons.mp hls with h | h
          · subst h; exact List.mem_append_left _ hc
          · exact List.mem_append_right _ (List.mem_cons_of_mem _ (ih h))

theorem splitlines_joinNL (ms : List (List Char)) (a : List Char)
    (hnb : ∀ l ∈ ms ++ [a], ∀ c ∈ l, isLineBreak c = false)
    (ha : a ≠ []) :
    splitlines (joinNL (ms ++ [a])) = ms ++ [a] := by
  induction ms with
  | nil =>
      have h1 : ∀ c ∈ a, isLineBreak c = false := hnb a (by simp)
      unfold splitlines
      rw [if_neg (by simpa [List.isEmpty_iff] using ha)]
      simp [joinNL, splitlinesGo_no_break a h1]
  | cons m ms' ih =>
      have hm : ∀ c ∈ m, isLineBreak c = false := hnb m (by simp)
      have hrest : ∀ l ∈ ms' ++ [a], ∀ c ∈ l, isLineBreak c = false := by
        intro l hl
        exact hnb l (by simp at hl ⊢; tauto)
      have hJ : joinNL (ms' ++ [a]) ≠ [] := joinNL_concat_ne_nil ha ms'
      rw [List.cons_append, joinNL_cons_of_ne_nil (by simp)]
      unfold splitlines
      rw [if_neg (by simp [List.isEmpty_iff])]
      rw [splitlinesGo_append_newline m hm]
      rw [if_neg (by simpa [List.isEmpty_iff] using hJ)]
      have := ih hrest
      unfold splitlines at this
      rw [if_neg (by simpa [List.isEmpty_iff] using hJ)] at this
      simp [this]

/-! ## Lemmas: `strip` -/

theorem dropWhile_append_of_exists {p : Char → Bool} {l : List Char}
    (h : ∃ c ∈ l, p c = false) (x : List Char) :
    List.dropWhile p (l ++ x) = List.dropWhile p l ++ x := by
  induction l with
  | nil => simp at h
  | cons c l' ih =>
      by_cases hc : p c = true
      · have h' : ∃ d ∈ l', p d = false := by
          rcases h with ⟨d, hd, hdf⟩
          rcases List.mem_cons.mp hd with rfl | hd'
          · exact absurd hc (by simp [hdf])
          · exact ⟨d, hd', hdf⟩
        simp [List.dropWhile, hc, ih h']
      · have hc' : p c = false := by
          cases hb : p c
          · rfl
          · exact absurd hb hc
        simp [List.dropWhile, hc']

theorem exists_mem_dropWhile {p : Char → Bool} {l : List Char}
    (h : ∃ c ∈ l, p c = false) : ∃ c ∈ List.dropWhile p l, p c = false := by
  induction l with
  | nil => simp at h
  | cons c l' ih =>
      by_cases hc : p c = true
      · have h' : ∃ d ∈ l', p d = false := by
          rcases h with ⟨d, hd, hdf⟩
          rcases List.mem_cons.mp hd with rfl | hd'
          · exact absurd hc (by simp [hdf])
          · exact ⟨d, hd', hdf⟩
        simpa [List.dropWhile, hc] using ih h'
      · have hc' : p c = false := by
          cases hb : p c
          · rfl
          · exact absurd hb hc
        exact ⟨c, by simp [List.dropWhile, hc'], hc'⟩

theorem all_dropWhile_iff {p : Char → Bool} {l : List Char} :
    (∀ c ∈ List.dropWhile p l, p c = true) ↔ ∀ c ∈ l, p c = true := by
  constructor
  · intro h
    induction l with
    | nil => simp
    | cons c l' ih =>
        by_cases hc : p c = true
        · intro x hx
          rcases List.mem_cons.mp hx with rfl | hx'
          · exact hc
          · exact ih (by simpa [List.dropWhile, hc] using h) x hx'
        · have hc' : p c = false := by
            cases hb : p c
            · rfl
            · exact absurd hb hc
          rw [List.dropWhile_cons_of_neg (by simp [hc'])] at h
          exact h
  · intro h c hc
    exact h c ((List.dropWhile_sublist p).mem hc)

theorem lstrip_eq_nil_iff {l : List Char} :
    lstrip l = [] ↔ ∀ c ∈ l, isPySpace c = true := by
  unfold lstrip
  constructor
  · intro h
    rw [← all_dropWhile_iff (p := isPySpace)]
    simp [h]
  · intro h
    induction l with
    | nil => rfl
    | cons c l' ih =>
        rw [List.dropWhile_cons_of_pos (by simp [h c (List.mem_cons_self c l')])]
        exact ih (fun x hx => h x (List.mem_cons_of_mem c hx))

theorem rstrip_eq_nil_iff {l : List Char} :
    rstrip l = [] ↔ ∀ c ∈ l, isPySpace c = true := by
  unfold rstrip
  rw [List.reverse_eq_nil_iff]
  constructor
  · intro h
    intro c hc
    exact lstrip_eq_nil_iff.mp h c (List.mem_reverse.mpr hc)
  · intro h
    exact lstrip_eq_nil_iff.mpr (fun c hc => h c (List.mem_reverse.mp hc))

theorem strip_eq_nil_iff {l : List Char} :
    strip l = [] ↔ ∀ c ∈ l, isPySpace c = true := by
  unfold strip
  rw [rstrip_eq_nil_iff]
  rw [show (∀ c ∈ lstrip l, isPySpace c = true) ↔ _ from all_dropWhile_iff]

theorem exists_mem_lstrip {l : List Char}
    (h : ∃ c ∈ l, isPySpace c = false) : ∃ c ∈ lstrip l, isPySpace c = false :=
  exists_mem_dropWhile h

theorem exists_mem_rstrip {l : List Char}
    (h : ∃ c ∈ l, isPySpace c = false) : ∃ c ∈ rstrip l, isPySpace c = false := by
  unfold rstrip
  have h' : ∃ c ∈ l.reverse, isPySpace c = false := by
    rcases h with ⟨c, hc, hcf⟩
    exact ⟨c, List.mem_reverse.mpr hc, hcf⟩
  rcases exists_mem_dropWhile h' with ⟨c, hc, hcf⟩
  exact ⟨c, List.mem_reverse.mpr hc, hcf⟩

theorem mem_of_mem_lstrip {l : List Char} {c : Char} (h : c ∈ lstrip l) : c ∈ l :=
  (List.dropWhile_sublist _).mem h

theorem mem_of_mem_rstrip {l : List Char} {c : Char} (h : c ∈ rstrip l) : c ∈ l := by
  unfold rstrip at h
  exact List.mem_reverse.mp ((List.dropWhile_sublist _).mem (List.mem_reverse.mp h))

theorem mem_of_mem_strip {l : List Char} {c : Char} (h : c ∈ strip l) : c ∈ l :=
  mem_of_mem_lstrip (mem_of_mem_rstrip h)

theorem lstrip_append_of_exists {x y : List Char}
    (h : ∃ c ∈ x, isPySpace c = false) : lstrip (x ++ y) = lstrip x ++ y :=
  dropWhile_append_of_exists h y

theorem rstrip_append_of_exists {x y : List Char}
    (h : ∃ c ∈ y, isPySpace c = false) : rstrip (x ++ y) = x ++ rstrip y := by
  unfold rstrip
  rw [List.reverse_append]
  rw [dropWhile_append_of_exists (by
    rcases h with ⟨c, hc, hcf⟩
    exact ⟨c, List.mem_reverse.mpr hc, hcf⟩)]
  simp

theorem lstrip_joinNL {m : List Char} (ms : List (List Char))
    (h : ∃ c ∈ m, isPySpace c = false) :
    lstrip (joinNL (m :: ms)) = joinNL (lstrip m :: ms) := by
  cases ms with
  | nil => rfl
  | cons b ms' =>
      rw [joinNL_cons_of_ne_nil (show (b :: ms') ≠ [] by simp) m]
      rw [joinNL_cons_of_ne_nil (show (b :: ms') ≠ [] by simp) (lstrip m)]
      exact lstrip_append_of_exists h

theorem rstrip_joinNL {a : List Char} (ms : List (List Char))
    (h : ∃ c ∈ a, isPySpace c = false) :
    rstrip (joinNL (ms ++ [a])) = joinNL (ms ++ [rstrip a]) := by
  induction ms with
  | nil => rfl
  | cons m ms' ih =>
      rw [List.cons_append, joinNL_cons_of_ne_nil (by simp)]
      rw [List.cons_append, joinNL_cons_of_ne_nil (by simp)]
      have hx : ∃ c ∈ joinNL (ms' ++ [a]), isPySpace c = false := by
        rcases h with ⟨c, hc, hcf⟩
        exact ⟨c, mem_joinNL_of_mem (by simp) hc, hcf⟩
      have : m ++ '\n' :: joinNL (ms' ++ [a]) = (m ++ ['\n']) ++ joinNL (ms' ++ [a]) := by
        simp
      rw [this, rstrip_append_of_exists hx, ih]
      simp

/-- The central counting lemma behind the row-count claim: joining non-blank,
break-free lines with a newline, stripping the result, and splitting it back
into lines recovers exactly one line per input line. -/
theorem length_splitlines_strip_joinNL (ls : List (List Char))
    (hnb : ∀ l ∈ ls, ∀ c ∈ l, isLineBreak c = false)
    (hblank : ∀ l ∈ ls, ∃ c ∈ l, isPySpace c = false)
    (hne : ls ≠ []) :
    (splitlines (strip (joinNL ls))).length = ls.length := by
  obtain ⟨m, ms, rfl⟩ : ∃ m ms, ls = m :: ms := by
    cases ls with
    | nil => exact absurd rfl hne
    | cons m ms => exact ⟨m, ms, rfl⟩
  unfold strip
  rw [lstrip_joinNL ms (hblank m (List.mem_cons_self m ms))]
  rcases List.eq_nil_or_concat (lstrip m :: ms) with h | ⟨ms₀, a, heq⟩
  · simp at h
  · have hmem_a : a ∈ lstrip m :: ms := by rw [heq]; simp
    have hwa : ∃ c ∈ a, isPySpace c = false := by
      rcases List.mem_cons.mp hmem_a with rfl | ha
      · exact exists_mem_lstrip (hblank m (List.mem_cons_self m ms))
      · exact hblank a (List.mem_cons_of_mem m ha)
    rw [show List.concat ms₀ a = ms₀ ++ [a] from List.concat_eq_append ms₀ a] at heq
    rw [heq, rstrip_joinNL ms₀ hwa]
    have hra : rstrip a ≠ [] := by
      rcases exists_mem_rstrip hwa with ⟨c, hc, _⟩
      intro h0
      rw [h0] at hc
      simp at hc
    have hnb' : ∀ l ∈ ms₀ ++ [rstrip a], ∀ c ∈ l, isLineBreak c = false := by
      intro l hl c hc
      rcases List.mem_append.mp hl with h | h
      · have : l ∈ lstrip m :: ms := by rw [heq]; exact List.mem_append_left _ h
        rcases List.mem_cons.mp this with rfl | hin
        · exact hnb m (List.mem_cons_self m ms) c (mem_of_mem_lstrip hc)
        · exact hnb l (List.mem_cons_of_mem m hin) c hc
      · have : l = rstrip a := by simpa using h
        subst this
        rcases List.mem_cons.mp hmem_a with hma | hin
        · subst hma
          exact hnb m (List.mem_cons_self m ms) c
            (mem_of_mem_lstrip (mem_of_mem_rstrip hc))
        · exact hnb a (List.mem_cons_of_mem m hin) c (mem_of_mem_rstrip hc)
    rw [splitlines_joinNL ms₀ (rstrip a) hnb' hra]
    have : (ms₀ ++ [a]).length = (m :: ms).length := by rw [← heq]; simp
    simpa using this

/-! ## Lemmas: truncation and separator lines -/

theorem truncateStop_eq_takeWhile (ls : List (List Char)) :
    truncateStop ls = ls.takeWhile (fun ln => !hasStop ln) := by
  induction ls with
  | nil => rfl
  | cons l ls' ih =>
      unfold truncateStop
      rw [List.findIdx?_cons]
      by_cases h : hasStop l = true
      · simp [h]
      · have h' : hasStop l = false := by
          cases hb : hasStop l
          · rfl
          · exact absurd hb h
        simp only [h', if_false, List.takeWhile_cons, Bool.not_false, if_true]
        unfold truncateStop at ih
        cases hf : List.findIdx? hasStop ls' with
        | none => simp [hf] at ih ⊢; exact ih
        | some i => simp [hf] at ih ⊢; exact ih

theorem dropWhile_append_all {p : Char → Bool} {u : List Char}
    (h : ∀ c ∈ u, p c = true) (x : List Char) :
    List.dropWhile p (u ++ x) = List.dropWhile p x := by
  induction u with
  | nil => rfl
  | cons c u' ih =>
      rw [List.cons_append, List.dropWhile_cons_of_pos (h c (List.mem_cons_self c u'))]
      exact ih (fun d hd => h d (List.mem_cons_of_mem c hd))

theorem takeWhile_append_all {p : Char → Bool} {u : List Char}
    (h : ∀ c ∈ u, p c = true) (x : List Char) :
    List.takeWhile p (u ++ x) = u ++ List.takeWhile p x := by
  induction u with
  | nil => rfl
  | cons c u' ih =>
      rw [List.cons_append, List.takeWhile_cons_of_pos (h c (List.mem_cons_self c u'))]
      rw [ih (fun d hd => h d (List.mem_cons_of_mem c hd))]
      rfl

theorem isSep_iff_SepSpec {ln : List Char} : isSep ln = true ↔ SepSpec ln := by
  constructor
  · intro h
    simp only [isSep, Bool.and_eq_true] at h
    rcases h with ⟨h1, h2⟩
    have h1' : 5 ≤ ((ln.dropWhile isPySpace).takeWhile (fun c => c = '-')).length :=
      of_decide_eq_true h1
    refine ⟨ln.takeWhile isPySpace,
      ((ln.dropWhile isPySpace).takeWhile (fun c => c = '-')).length,
      (ln.dropWhile isPySpace).dropWhile (fun c => c = '-'), ?_, ?_, h1', ?_⟩
    · intro c hc
      exact List.mem_takeWhile_imp hc
    · intro c hc
      exact (List.all_eq_true.mp h2) c hc
    · have hd : (ln.dropWhile isPySpace).takeWhile (fun c => c = '-') =
          List.replicate ((ln.dropWhile isPySpace).takeWhile (fun c => c = '-')).length '-' := by
        apply List.eq_replicate_of_mem
        intro c hc
        have := List.mem_takeWhile_imp hc
        exact of_decide_eq_true this
      rw [← hd, List.append_assoc, List.takeWhile_append_dropWhile]
      exact (List.takeWhile_append_dropWhile _ _).symm
  · rintro ⟨u, n, v, hu, hv, hn, rfl⟩
    simp only [isSep]
    have hdash : isPySpace '-' = false := by decide
    have hrep : ∀ c ∈ List.replicate n '-', isPySpace c = false := by
      intro c hc
      rw [List.eq_of_mem_replicate hc]
      exact hdash
    have ht : (u ++ (List.replicate n '-' ++ v)).dropWhile isPySpace =
        List.replicate n '-' ++ v := by
      rw [dropWhile_append_all hu]
      cases n with
      | zero => omega
      | succ k =>
          rw [List.replicate_succ, List.cons_append,
            List.dropWhile_cons_of_neg (by simp [hdash])]
    rw [List.append_assoc, ht]
    have hall : ∀ c ∈ List.replicate n '-', (fun c => decide (c = '-')) c = true := by
      intro c hc
      simp [List.eq_of_mem_replicate hc]
    have htw : (List.replicate n '-' ++ v).takeWhile (fun c => c = '-') =
        List.replicate n '-' := by
      rw [takeWhile_append_all hall]
      cases v with
      | nil => simp
      | cons c v' =>
          have : isPySpace c = true := hv c (List.mem_cons_self c v')
          have hc : ¬ (c = '-') := by
            intro hc
            rw [hc] at this
            exact absurd this (by simp [hdash])
          rw [List.takeWhile_cons_of_neg (by simp [hc])]
          simp
    have hdw : (List.replicate n '-' ++ v).dropWhile (fun c => c = '-') = v := by
      rw [dropWhile_append_all hall]
      cases v with
      | nil => rfl
      | cons c v' =>
          have : isPySpace c = true := hv c (List.mem_cons_self c v')
          have hc : ¬ (c = '-') := by
            intro hc
            rw [hc] at this
            exact absurd this (by simp [hdash])
          rw [List.dropWhile_cons_of_neg (by simp [hc])]
    rw [htw, hdw]
    simp only [Bool.and_eq_true, decide_eq_true_eq, List.length_replicate]
    exact ⟨by omega, List.all_eq_true.mpr hv⟩

/-! ## Lemmas: numeric field parsing -/

theorem dropWhile_nil_iff {p : Char → Bool} {l : List Char} :
    List.dropWhile p l = [] ↔ ∀ c ∈ l, p c = true := by
  constructor
  · intro h
    rw [← all_dropWhile_iff (p := p)]
    simp [h]
  · intro h
    induction l with
    | nil => rfl
    | cons c l' ih =>
        rw [List.dropWhile_cons_of_pos (by simp [h c (List.mem_cons_self c l')])]
        exact ih (fun x hx => h x (List.mem_cons_of_mem c hx))

theorem head_dropWhile_false {p : Char → Bool} {l : List Char} {d : Char}
    {r : List Char} (h : List.dropWhile p l = d :: r) : p d = false := by
  induction l with
  | nil => simp [List.dropWhile] at h
  | cons c l' ih =>
      by_cases hc : p c = true
      · rw [List.dropWhile_cons_of_pos hc] at h
        exact ih h
      · have hc' : p c = false := by
          cases hb : p c
          · rfl
          · exact absurd hb hc
        rw [List.dropWhile_cons_of_neg (by simp [hc'])] at h
        cases h
        exact hc'

theorem numBodySpec_nil : ¬ NumBodySpec [] := by
  rintro (⟨h, _⟩ | ⟨ip, fp, h, _⟩)
  · exact h rfl
  · exact absurd h.symm (by simp)

/-- A digit-prefixed decimal decomposition is unique: it must agree with the
`takeWhile`/`dropWhile` split at the digit run. -/
theorem decomp_unique {body ip' fp' : List Char}
    (h : body = ip' ++ '.' :: fp') (hip : ∀ c ∈ ip', isDigit c = true) :
    body.takeWhile isDigit = ip' ∧ body.dropWhile isDigit = '.' :: fp' := by
  have hdot : isDigit '.' = false := by decide
  subst h
  constructor
  · rw [takeWhile_append_all hip, List.takeWhile_cons_of_neg (by simp [hdot])]
    simp
  · rw [dropWhile_append_all hip, List.dropWhile_cons_of_neg (by simp [hdot])]

theorem parseBody_eq_na_iff (neg : Bool) (body : List Char) :
    parseBody neg body = Cell.na ↔ ¬ NumBodySpec body := by
  by_cases h0 : body = []
  · subst h0
    simp [parseBody, numBodySpec_nil]
  · have hempty : body.isEmpty = false := by simpa [List.isEmpty_iff] using h0
    by_cases hdig : body.all isDigit = true
    · have hne : parseBody neg body = Cell.intN (intOfSign neg (digitsVal body)) := by
        simp [parseBody, hempty, hdig]
      rw [hne]
      constructor
      · intro h; exact absurd h (by simp)
      · intro h
        exact absurd (Or.inl ⟨h0, List.all_eq_true.mp hdig⟩) h
    · have hdig' : body.all isDigit = false := by
        cases hb : body.all isDigit
        · rfl
        · exact absurd hb hdig
      have hrest : List.dropWhile isDigit body ≠ [] := by
        rw [Ne, dropWhile_nil_iff]
        intro hall
        exact hdig (List.all_eq_true.mpr hall)
      obtain ⟨d, r, hd⟩ : ∃ d r, List.dropWhile isDigit body = d :: r := by
        cases hc : List.dropWhile isDigit body with
        | nil => exact absurd hc hrest
        | cons d r => exact ⟨d, r, rfl⟩
      have hdfalse : isDigit d = false := head_dropWhile_false hd
      have hbody : body = body.takeWhile isDigit ++ d :: r := by
        rw [← hd, List.takeWhile_append_dropWhile]
      have hip : ∀ c ∈ body.takeWhile isDigit, isDigit c = true := by
        intro c hc
        exact List.mem_takeWhile_imp hc
      have hnospec :
          (d = '.' && r.all isDigit && !((body.takeWhile isDigit).isEmpty && r.isEmpty))
            = false → ¬ NumBodySpec body := by
        intro hguard hspec
        rcases hspec with ⟨hne', hall⟩ | ⟨ip', fp', heq, hip', hfp', hne'⟩
        · exact absurd (List.all_eq_true.mpr hall) (by simp [hdig'])
        · rcases decomp_unique heq hip' with ⟨htw, hdw⟩
          rw [hd] at hdw
          cases hdw
          rw [htw] at hguard
          have hra : r.all isDigit = true := List.all_eq_true.mpr hfp'
          rcases hne' with hni | hnf
          · have hie : ip'.isEmpty = false := by
              cases hb : ip'.isEmpty
              · rfl
              · exact absurd (List.isEmpty_iff.mp hb) hni
            rw [hra, hie] at hguard
            simp at hguard
          · have hre : r.isEmpty = false := by
              cases hb : r.isEmpty
              · rfl
              · exact absurd (List.isEmpty_iff.mp hb) hnf
            rw [hra, hre] at hguard
            simp at hguard
      by_cases hguard :
          (d = '.' && r.all isDigit &&
            !((body.takeWhile isDigit).isEmpty && r.isEmpty)) = true
      · have hg := hguard
        simp only [Bool.and_eq_true] at hg
        obtain ⟨⟨hgdot, hgall⟩, hgne⟩ := hg
        have hdot : d = '.' := of_decide_eq_true hgdot
        have hgne' : ((body.takeWhile isDigit).isEmpty && r.isEmpty) = false := by
          cases hb : ((body.takeWhile isDigit).isEmpty && r.isEmpty)
          · rfl
          · rw [hb] at hgne
            exact absurd hgne (by simp)
        have hval : parseBody neg body =
            Cell.decN (intOfSign neg (digitsVal (body.takeWhile isDigit ++ r)))
              r.length := by
          simp only [parseBody, hempty, hdig', hd, Bool.false_eq_true, if_false]
          rw [if_pos hguard]
        rw [hval]
        constructor
        · intro h; exact absurd h (by simp)
        · intro h
          refine absurd (Or.inr ⟨body.takeWhile isDigit, r, ?_, hip,
            List.all_eq_true.mp hgall, ?_⟩) h
          · rw [← hdot]; exact hbody
          · cases hie : (body.takeWhile isDigit).isEmpty with
            | false =>
                refine Or.inl (fun hnil => ?_)
                rw [hnil] at hie
                simp at hie
            | true =>
                have hre : r.isEmpty = false := by
                  rw [hie] at hgne'
                  simpa using hgne'
                refine Or.inr (fun hnil => ?_)
                rw [hnil] at hre
                simp at hre
      · have hguard' : (d = '.' && r.all isDigit &&
            !((body.takeWhile isDigit).isEmpty && r.isEmpty)) = false := by
          cases hb : (d = '.' && r.all isDigit &&
            !((body.takeWhile isDigit).isEmpty && r.isEmpty))
          · rfl
          · exact absurd hb hguard
        have hval : parseBody neg body = Cell.na := by
          simp only [parseBody, hempty, hdig', hd, Bool.false_eq_true, if_false]
          rw [if_neg (show ¬ _ = true by rw [hguard']; simp)]
        rw [hval]
        simp only [true_iff]
        exact hnospec hguard'

theorem numBodySpec_head {body : List Char} (h : NumBodySpec body) :
    ∃ e rest, body = e :: rest ∧ (isDigit e = true ∨ e = '.') := by
  rcases h with ⟨hne, hall⟩ | ⟨ip, fp, heq, hip, _, _⟩
  · cases body with
    | nil => exact absurd rfl hne
    | cons e rest => exact ⟨e, rest, rfl, Or.inl (hall e (List.mem_cons_self e rest))⟩
  · cases ip with
    | nil => exact ⟨'.', fp, by simpa using heq, Or.inr rfl⟩
    | cons i ip' =>
        exact ⟨i, ip' ++ '.' :: fp, by simpa using heq,
          Or.inl (hip i (List.mem_cons_self i ip'))⟩

theorem numericTokSpec_iff_body {tok : List Char} :
    NumericTokSpec tok ↔ NumBodySpec (stripSign tok).2 := by
  constructor
  · rintro ⟨body, hdec, hb⟩
    obtain ⟨e, rest, hbe, hdig⟩ := numBodySpec_head hb
    have hminus : e ≠ '-' := by
      rcases hdig with h | h
      · intro he; rw [he] at h; exact absurd h (by decide)
      · rw [h]; decide
    have hplus : e ≠ '+' := by
      rcases hdig with h | h
      · intro he; rw [he] at h; exact absurd h (by decide)
      · rw [h]; decide
    rcases hdec with rfl | rfl | rfl
    · rw [hbe]
      simpa [stripSign, hminus, hplus] using (hbe ▸ hb)
    · simpa [stripSign] using hb
    · simpa [stripSign] using hb
  · intro h
    cases tok with
    | nil => exact absurd (by simpa [stripSign] using h) numBodySpec_nil
    | cons c r =>
        by_cases hc : c = '-'
        · subst hc
          exact ⟨r, Or.inr (Or.inl rfl), by simpa [stripSign] using h⟩
        · by_cases hp : c = '+'
          · subst hp
            exact ⟨r, Or.inr (Or.inr rfl), by simpa [stripSign] using h⟩
          · exact ⟨c :: r, Or.inl rfl, by simpa [stripSign, hc, hp] using h⟩

theorem parseCell_eq_na_iff {tok : List Char} :
    parseCell tok = Cell.na ↔ ¬ NumericTokSpec tok := by
  unfold parseCell
  rw [parseBody_eq_na_iff]
  exact not_congr numericTokSpec_iff_body.symm

/-! ## Lemmas: the retrieval pipeline -/

theorem sounding_exists_some_snd (body : List Char) :
    (sounding_exists (some body)).2 = some body := by
  simp only [sounding_exists]
  split_ifs <;> rfl

theorem sounding_exists_some_true {body : List Char}
    (h : hasNoDataMarker body = false) (h2 : ¬ (strip body).length < 200) :
    sounding_exists (some body) = (true, some body) := by
  simp only [sounding_exists]
  rw [if_neg (by rw [h]; simp), if_neg h2]

/-- Inversion of a successful call: the pieces the table is assembled from. -/
theorem get_wyoming_ok_inv {resp : Option (List Char)} {idx : Nat} {t : Table}
    {body : List Char} (h1 : resp = some body)
    (hok : get_wyoming resp idx = Except.ok t) :
    ∃ block, findPre body = some block ∧
      idx < (splitlines block).length ∧
      (strip (joinNL (survivingLines (splitlines block) idx))).isEmpty = false ∧
      t = { read_fwf (strip (joinNL (survivingLines (splitlines block) idx)))
              (splitWS (headerLineOf (splitlines block) idx)) with
            units := unitsLineOf (splitlines block) idx } := by
  subst h1
  unfold get_wyoming at hok
  rcases hse : sounding_exists (some body) with ⟨b, ro⟩
  rw [hse] at hok
  have hro : ro = some body := by
    have := sounding_exists_some_snd body
    rw [hse] at this
    exact this
  subst hro
  cases b with
  | false => simp at hok
  | true =>
      simp only [Option.getD_some] at hok
      rcases hfp : findPre body with _ | block
      · rw [hfp] at hok
        simp at hok
      · rw [hfp] at hok
        simp only [] at hok
        refine ⟨block, rfl, ?_⟩
        by_cases hidx : idx < (splitlines block).length
        · rw [if_pos hidx] at hok
          refine ⟨hidx, ?_⟩
          by_cases hdt : (strip (joinNL (survivingLines (splitlines block) idx))).isEmpty = true
          · rw [if_pos hdt] at hok
            simp at hok
          · have hdt' : (strip (joinNL (survivingLines (splitlines block) idx))).isEmpty
                = false := by
              cases hb : (strip (joinNL (survivingLines (splitlines block) idx))).isEmpty
              · rfl
              · exact absurd hb hdt
            rw [if_neg hdt] at hok
            cases hok
            exact ⟨hdt', rfl⟩
        · rw [if_neg hidx] at hok
          simp at hok

/-! ## Claim theorems -/

/-- C3: the availability prober classifies a response as unavailable exactly
when the transport call failed (no body), the body contains one of the two
"no data" phrases, or the trimmed body is shorter than 200 characters;
otherwise it is available and carries the body unchanged. -/
theorem c3_prober_classification :
    sounding_exists none = (false, none) ∧
    ∀ b : List Char,
      ((sounding_exists (some b)).1 = false ↔
        (hasNoDataMarker b = true ∨ (strip b).length < 200)) ∧
      (sounding_exists (some b)).2 = some b := by
  refine ⟨rfl, fun b => ⟨?_, sounding_exists_some_snd b⟩⟩
  simp only [sounding_exists]
  by_cases h1 : hasNoDataMarker b = true
  · simp [h1]
  · by_cases h2 : (strip b).length < 200
    · simp [h1, h2]
    · simp [h1, h2]

/-- C9: parsing is deterministic — the pipeline is a pure function of the
response body and header index, so two runs agree on every component of the
result. -/
theorem c9_parse_deterministic (resp : Option (List Char)) (idx : Nat) :
    get_wyoming resp idx = get_wyoming resp idx ∧
    ∀ t t' : Table, get_wyoming resp idx = Except.ok t →
      get_wyoming resp idx = Except.ok t' →
      t.rows = t'.rows ∧ t.colnames = t'.colnames ∧ t.units = t'.units := by
  refine ⟨rfl, fun t t' h h' => ?_⟩
  rw [h] at h'
  cases h'
  exact ⟨rfl, rfl, rfl⟩

/-- C10: the header-line access is unguarded — an available response whose
preformatted block has `header_idx` or fewer lines fails with the raw
index-out-of-range error, not one of the descriptive errors. -/
theorem c10_index_error (resp : Option (List Char)) (idx : Nat)
    (body block : List Char) (h1 : resp = some body)
    (hav : (sounding_exists resp).1 = true)
    (h2 : findPre body = some block)
    (h3 : (splitlines block).length ≤ idx) :
    get_wyoming resp idx = Except.error WErr.indexErr := by
  subst h1
  have hse : sounding_exists (some body) = (true, some body) := by
    rcases hp : sounding_exists (some body) with ⟨b, ro⟩
    have hro : ro = some body := by
      have := sounding_exists_some_snd body
      rw [hp] at this
      exact this
    rw [hp] at hav
    simp at hav
    rw [hro, hav]
  unfold get_wyoming
  rw [hse]
  simp only [Option.getD_some, h2]
  rw [if_neg (by omega)]

/-- A five-line fixture whose line at index 3 is a separator rule. -/
def linesFix : List (List Char) :=
  [chars ("A"), chars ("B"), chars ("C"), chars (" ------ "), chars ("D")]

/-- A candidate-line fixture: one data line, a separator, a blank, a
stop-marker line, and a trailing tabular-looking line. -/
def candFix : List (List Char) :=
  [chars (" 5 6"), chars (" ------- "), chars (""),
   chars ("x Station information y"), chars (" 7 8")]

/-- `w1` parses successfully to the fixture table `T1`. -/
theorem w1_parses : get_wyoming (some w1) 2 = Except.ok T1 := rfl

/-- C4 counterexample: the units line is not taken verbatim — with lines
`["HDR", "  hPa  "]` and header index 0, the line following the header is
present but the computed units line differs from it (it is trimmed). -/
theorem c4_counterexample :
    2 ≤ ([chars ("HDR"), chars ("  hPa  ")] : List (List Char)).length ∧
    unitsLineOf [chars ("HDR"), chars ("  hPa  ")] 0 ≠ chars ("  hPa  ") ∧
    unitsLineOf [chars ("HDR"), chars ("  hPa  ")] 0 = chars ("hPa") :=
  ⟨by decide, by decide, by decide⟩

/-- C4 (amended): for a block with more than `headerLineIndex` lines, the
header line is the line at the index, trimmed; the units line is the
following line trimmed when present, else empty; the data start is
`headerLineIndex + 2`, advanced by exactly one more line iff the line there
exists and consists of five or more dashes optionally surrounded by
whitespace. -/
theorem c4_header_units_datastart (lines : List (List Char)) (idx : Nat)
    (h : idx < lines.length) :
    headerLineOf lines idx = strip (lines.getD idx []) ∧
    unitsLineOf lines idx =
      (if idx + 1 < lines.length then strip (lines.getD (idx + 1) []) else []) ∧
    (dataStartOf lines idx = idx + 2 ∨ dataStartOf lines idx = idx + 3) ∧
    (dataStartOf lines idx = idx + 3 ↔
      idx + 2 < lines.length ∧ SepSpec (lines.getD (idx + 2) [])) := by
  refine ⟨rfl, rfl, ?_, ?_⟩
  · unfold dataStartOf
    split
    · exact Or.inr rfl
    · exact Or.inl rfl
  · unfold dataStartOf
    constructor
    · intro h3
      split at h3
      · rename_i hcond
        rw [Bool.and_eq_true] at hcond
        exact ⟨of_decide_eq_true hcond.1, isSep_iff_SepSpec.mp hcond.2⟩
      · omega
    · rintro ⟨hlt, hsep⟩
      rw [if_pos]
      rw [Bool.and_eq_true]
      exact ⟨decide_eq_true hlt, isSep_iff_SepSpec.mpr hsep⟩

/-- C4 witness: the amended statement at the fixture lines, where the
separator advance fires. -/
theorem c4_witness :
    (headerLineOf linesFix 1 = strip (linesFix.getD 1 []) ∧
      unitsLineOf linesFix 1 =
        (if 1 + 1 < linesFix.length then strip (linesFix.getD (1 + 1) []) else []) ∧
      (dataStartOf linesFix 1 = 1 + 2 ∨ dataStartOf linesFix 1 = 1 + 3) ∧
      (dataStartOf linesFix 1 = 1 + 3 ↔
        1 + 2 < linesFix.length ∧ SepSpec (linesFix.getD (1 + 2) []))) ∧
    dataStartOf linesFix 1 = 4 :=
  ⟨c4_header_units_datastart linesFix 1 (by decide), by decide⟩

/-- C5: truncation happens first and is exclusive — the code's cut at the
first stop-marker line equals taking lines while no stop marker occurs —
and the subsequent filter leaves only lines that carry no stop marker, are
not blank, and are not separator lines. -/
theorem c5_truncate_then_filter (cand : List (List Char)) :
    (truncateStop cand).filter keepLine =
      (cand.takeWhile (fun ln => !hasStop ln)).filter keepLine ∧
    ∀ ln ∈ (truncateStop cand).filter keepLine,
      hasStop ln = false ∧ ¬ BlankSpec ln ∧ ¬ SepSpec ln := by
  constructor
  · rw [truncateStop_eq_takeWhile]
  · intro ln hln
    rcases List.mem_filter.mp hln with ⟨hmem, hkeep⟩
    have hkeep' : (strip ln).isEmpty = false ∧ isSep ln = false := by
      simp only [keepLine, Bool.and_eq_true, Bool.not_eq_true'] at hkeep
      exact hkeep
    refine ⟨?_, ?_, ?_⟩
    · rw [truncateStop_eq_takeWhile] at hmem
      have := List.mem_takeWhile_imp hmem
      simpa using this
    · intro hb
      have hnil := strip_eq_nil_iff.mpr hb
      rw [hnil] at hkeep'
      simp at hkeep'
    · intro hs
      have := isSep_iff_SepSpec.mpr hs
      rw [this] at hkeep'
      simp at hkeep'

/-- C5 witness: on the candidate fixture, the truncate-then-filter pipeline
equals the takeWhile formulation and keeps exactly the one data line. -/
theorem c5_witness :
    (truncateStop candFix).filter keepLine =
      (candFix.takeWhile (fun ln => !hasStop ln)).filter keepLine ∧
    (truncateStop candFix).filter keepLine = [chars (" 5 6")] :=
  ⟨(c5_truncate_then_filter candFix).1, by decide⟩

/-- C7 counterexample: the units metadata is not the verbatim following
line — parsing `w1` succeeds, the line after the header inside the block has
surrounding whitespace, and the attached units string differs from it. -/
theorem c7_counterexample :
    get_wyoming (some w1) 2 = Except.ok T1 ∧
    (splitlines blk1).getD 3 [] = chars ("   hPa    m     C  ") ∧
    T1.units ≠ (splitlines blk1).getD 3 [] :=
  ⟨w1_parses, by decide, by decide⟩

/-- C7 (amended): for every successful parse, the units metadata is the line
following the header line inside the preformatted block, trimmed of leading
and trailing whitespace (empty when absent). -/
theorem c7_units_trimmed (resp : Option (List Char)) (idx : Nat) (t : Table)
    (body block : List Char) (h1 : resp = some body)
    (h2 : findPre body = some block)
    (hok : get_wyoming resp idx = Except.ok t) :
    t.units = strip ((splitlines block).getD (idx + 1) []) := by
  obtain ⟨block', hfp, hidx, hne, ht⟩ := get_wyoming_ok_inv h1 hok
  rw [h2] at hfp
  cases hfp
  rw [ht]
  show unitsLineOf (splitlines block) idx = _
  unfold unitsLineOf
  split
  · rfl
  · rename_i hge
    rw [List.getD_eq_default]
    · rfl
    · omega

/-- C7 witness: the amended statement on the `w1` fixture. -/
theorem c7_witness :
    T1.units = strip ((splitlines blk1).getD (2 + 1) []) ∧
    T1.units = chars ("hPa    m     C") :=
  ⟨c7_units_trimmed (some w1) 2 T1 w1 blk1 rfl rfl w1_parses, by decide⟩

theorem splitlinesGo_ne_nil (s : List Char) : ∀ acc, splitlinesGo s acc ≠ [] := by
  induction s with
  | nil => intro acc; simp [splitlinesGo]
  | cons c rest ih =>
      intro acc
      by_cases hc : isLineBreak c = true
      · cases rest with
        | nil => simp [splitlinesGo, hc]
        | cons d r2 =>
            simp only [splitlinesGo, hc, if_true]
            split
            · split <;> simp
            · simp
      · have hc2 : isLineBreak c = false := by
          cases hb : isLineBreak c
          · rfl
          · exact absurd hb hc
        rw [splitlinesGo_cons hc2]
        exact ih _

theorem read_fwf_rows_length (text : List Char) (names : List (List Char)) :
    (read_fwf text names).rows.length = (splitlines text).length := by
  simp [read_fwf]

theorem get_wyoming_of_unavailable {resp : Option (List Char)} (idx : Nat)
    (h : (sounding_exists resp).1 = false) :
    get_wyoming resp idx = Except.error WErr.unavailable := by
  unfold get_wyoming
  rcases hse : sounding_exists resp with ⟨b, ro⟩
  rw [hse] at h
  simp at h
  subst h
  rfl

/-- On an available response the pipeline reduces to the pure extraction and
parse of the body. -/
theorem get_wyoming_of_available {resp : Option (List Char)} {body : List Char}
    (idx : Nat) (h1 : resp = some body) (h : (sounding_exists resp).1 = true) :
    get_wyoming resp idx =
      (match findPre body with
       | none => Except.error WErr.noPre
       | some block =>
          if idx < (splitlines block).length then
            if (strip (joinNL (survivingLines (splitlines block) idx))).isEmpty then
              Except.error WErr.noData
            else
              Except.ok
                { read_fwf (strip (joinNL (survivingLines (splitlines block) idx)))
                    (splitWS (headerLineOf (splitlines block) idx)) with
                  units := unitsLineOf (splitlines block) idx }
          else Except.error WErr.indexErr) := by
  subst h1
  unfold get_wyoming
  rcases hse : sounding_exists (some body) with ⟨b, ro⟩
  have hro : ro = some body := by
    have := sounding_exists_some_snd body
    rw [hse] at this
    exact this
  rw [hse] at h
  simp at h
  subst h
  subst hro
  rfl

/-- C2: the three descriptive failures occur exactly under their stated
conditions, in order — unavailability first, then the missing preformatted
block, then empty-after-filtering data — and a success never carries an
empty table. -/
theorem c2_error_conditions (resp : Option (List Char)) (idx : Nat) :
    (get_wyoming resp idx = Except.error WErr.unavailable ↔
      (sounding_exists resp).1 = false) ∧
    (∀ body, resp = some body → (sounding_exists resp).1 = true →
      (get_wyoming resp idx = Except.error WErr.noPre ↔ findPre body = none)) ∧
    (∀ body block, resp = some body → (sounding_exists resp).1 = true →
      findPre body = some block → idx < (splitlines block).length →
      (get_wyoming resp idx = Except.error WErr.noData ↔
        BlankSpec (joinNL (survivingLines (splitlines block) idx)))) ∧
    (∀ t, get_wyoming resp idx = Except.ok t → t.rows ≠ []) := by
  refine ⟨?_, ?_, ?_, ?_⟩
  · constructor
    · intro h
      cases hb : (sounding_exists resp).1 with
      | false => rfl
      | true =>
          rcases hr : resp with _ | body
          · rw [hr] at hb; simp [sounding_exists] at hb
          · rw [hr] at hb
            rw [get_wyoming_of_available idx hr (by rw [hr]; exact hb)] at h
            rcases hfp : findPre body with _ | block <;> rw [hfp] at h
            · simp at h
            · simp only [] at h
              split at h
              · split at h <;> simp at h
              · simp at h
    · intro h
      exact get_wyoming_of_unavailable idx h
  · intro body h1 hav
    rw [get_wyoming_of_available idx h1 hav]
    rcases hfp : findPre body with _ | block
    · simp
    · simp only []
      constructor
      · intro h
        split at h
        · split at h <;> simp at h
        · simp at h
      · intro h
        exact absurd h (by simp)
  · intro body block h1 hav hfp hidx
    rw [get_wyoming_of_available idx h1 hav, hfp]
    simp only []
    rw [if_pos hidx]
    by_cases hdt : (strip (joinNL (survivingLines (splitlines block) idx))).isEmpty = true
    · rw [if_pos hdt]
      exact iff_of_true rfl (strip_eq_nil_iff.mp (List.isEmpty_iff.mp hdt))
    · rw [if_neg hdt]
      constructor
      · intro h; simp at h
      · intro h
        exact absurd (List.isEmpty_iff.mpr (strip_eq_nil_iff.mpr h)) hdt
  · intro t hok
    rcases hr : resp with _ | body
    · rw [hr] at hok
      rw [get_wyoming_of_unavailable idx (by simp [sounding_exists])] at hok
      simp at hok
    · obtain ⟨block, hfp, hidx, hne, ht⟩ := get_wyoming_ok_inv hr hok
      set txt := strip (joinNL (survivingLines (splitlines block) idx)) with htxt
      set nms := splitWS (headerLineOf (splitlines block) idx) with hnms
      rw [ht]
      show (read_fwf txt nms).rows ≠ []
      intro hrows
      have hlen := read_fwf_rows_length txt nms
      rw [hrows] at hlen
      have hsne : txt ≠ [] := by
        intro h0
        rw [h0] at hne
        simp at hne
      unfold splitlines at hlen
      rw [if_neg (by simpa [List.isEmpty_iff] using hsne)] at hlen
      cases hgo : splitlinesGo txt [] with
      | nil => exact splitlinesGo_ne_nil txt [] hgo
      | cons x xs => rw [hgo] at hlen; simp at hlen

/-- C2 witness: an available body whose preformatted block, after truncation
and filtering, has only whitespace left fails with the no-data-rows error. -/
theorem c2_witness : get_wyoming (some w2) 2 = Except.error WErr.noData := by
  have h := ((c2_error_conditions (some w2) 2).2.2.1) w2 blk2 rfl (by decide)
    (by decide) (by decide)
  exact h.mpr (by decide)

/-- C1: on every successful parse, the table has exactly one row per
surviving data line — the count of lines from the detected data start up to
the first stop-marker line (exclusive) that are neither blank nor separator
lines. -/
theorem c1_row_count (resp : Option (List Char)) (idx : Nat) (t : Table)
    (body block : List Char) (h1 : resp = some body)
    (h2 : findPre body = some block)
    (hok : get_wyoming resp idx = Except.ok t) :
    t.rows.length =
      ((((splitlines block).drop (dataStartOf (splitlines block) idx)).takeWhile
        (fun ln => !hasStop ln)).filter keepLine).length := by
  obtain ⟨block', hfp, hidx, hne, ht⟩ := get_wyoming_ok_inv h1 hok
  rw [h2] at hfp
  cases hfp
  set lines := splitlines block with hlines
  set ds := survivingLines lines idx with hds
  set txt := strip (joinNL ds) with htxt
  have hrows : t.rows = (read_fwf txt (splitWS (headerLineOf lines idx))).rows := by
    rw [ht]
  have hsub : ∀ l ∈ ds, l ∈ lines := by
    intro l hl
    rw [hds] at hl
    unfold survivingLines at hl
    rcases List.mem_filter.mp hl with ⟨hmem, _⟩
    rw [truncateStop_eq_takeWhile] at hmem
    exact ((List.takeWhile_sublist _).trans (List.drop_sublist _ _)).mem hmem
  have hnb : ∀ l ∈ ds, ∀ c ∈ l, isLineBreak c = false := by
    intro l hl
    exact mem_splitlines_all (hsub l hl)
  have hblank : ∀ l ∈ ds, ∃ c ∈ l, isPySpace c = false := by
    intro l hl
    rw [hds] at hl
    unfold survivingLines at hl
    rcases List.mem_filter.mp hl with ⟨_, hkeep⟩
    have hk : (strip l).isEmpty = false := by
      simp only [keepLine, Bool.and_eq_true, Bool.not_eq_true'] at hkeep
      exact hkeep.1
    have hsne : strip l ≠ [] := by
      intro h0
      rw [h0] at hk
      simp at hk
    by_contra hno
    push_neg at hno
    refine hsne (strip_eq_nil_iff.mpr ?_)
    intro c hc
    have := hno c hc
    cases hb : isPySpace c
    · exact absurd hb this
    · rfl
  have hdsne : ds ≠ [] := by
    intro h0
    rw [h0] at htxt
    rw [htxt] at hne
    simp [joinNL, strip, lstrip, rstrip] at hne
  have hlen : t.rows.length = (splitlines txt).length := by
    rw [hrows, read_fwf_rows_length]
  rw [hlen, htxt]
  rw [length_splitlines_strip_joinNL ds hnb hblank hdsne]
  rw [hds]
  unfold survivingLines
  rw [truncateStop_eq_takeWhile]

/-- C1 witness: the `w1` fixture has two surviving data lines and a two-row
table. -/
theorem c1_witness :
    T1.rows.length =
      ((((splitlines blk1).drop (dataStartOf (splitlines blk1) 2)).takeWhile
        (fun ln => !hasStop ln)).filter keepLine).length ∧
    T1.rows.length = 2 :=
  ⟨c1_row_count (some w1) 2 T1 w1 blk1 rfl rfl w1_parses, by decide⟩

/-- C6: a blank or non-numeric fixed-width field becomes the explicit
missing-value marker (never an integer such as zero, never a decimal, and no
empty-string value exists in the cell type); column types are inferred from
the non-missing values — integer when all are integral, decimal otherwise,
untyped when there are none — and every table cell arises as the best-effort
conversion of a trimmed fixed-width field. -/
theorem c6_missing_values_and_types :
    (∀ fld : List Char, BlankSpec fld → parseCell (strip fld) = Cell.na) ∧
    (∀ tok : List Char, parseCell tok = Cell.na ↔ ¬ NumericTokSpec tok) ∧
    (∀ i : Int, Cell.intN i ≠ Cell.na) ∧
    (∀ m : Int, ∀ e : Nat, Cell.decN m e ≠ Cell.na) ∧
    (∀ col : List Cell,
      (inferColType col = ColType.untyped ↔ col.filter (fun c => !isNA c) = []) ∧
      (col.filter (fun c => !isNA c) ≠ [] →
        (inferColType col = ColType.intType ↔
          (col.filter (fun c => !isNA c)).all cellIntegral = true))) ∧
    (∀ text names row cell, row ∈ (read_fwf text names).rows → cell ∈ row →
      ∃ fld, cell = parseCell (strip fld)) := by
  refine ⟨?_, fun tok => parseCell_eq_na_iff, fun i => by simp,
    fun m e => by simp, ?_, ?_⟩
  · intro fld hb
    rw [strip_eq_nil_iff.mpr hb]
    rfl
  · intro col
    unfold inferColType
    constructor
    · by_cases he : (col.filter (fun c => !isNA c)).isEmpty = true
      · rw [if_pos he]
        exact iff_of_true rfl (List.isEmpty_iff.mp he)
      · rw [if_neg he]
        constructor
        · intro h
          split at h <;> simp at h
        · intro h
          exact absurd (List.isEmpty_iff.mpr h) he
    · intro hne
      have he : (col.filter (fun c => !isNA c)).isEmpty = false := by
        cases hb : (col.filter (fun c => !isNA c)).isEmpty
        · rfl
        · exact absurd (List.isEmpty_iff.mp hb) hne
      rw [if_neg (by rw [he]; simp)]
      by_cases ha : (col.filter (fun c => !isNA c)).all cellIntegral = true
      · rw [if_pos ha]
        exact iff_of_true rfl ha
      · rw [if_neg ha]
        constructor
        · intro h; simp at h
        · intro h; exact absurd h ha
  · intro text names row cell hrow hcell
    unfold read_fwf at hrow
    simp only [] at hrow
    rcases List.mem_map.mp hrow with ⟨r, _, hr⟩
    rw [← hr] at hcell
    rcases List.mem_map.mp hcell with ⟨se, _, hse⟩
    exact ⟨(r.drop se.1).take (se.2 - se.1), hse.symm⟩

/-- C6 witness: a whitespace-only field parses to the missing marker, and a
signed decimal field to a decimal value. -/
theorem c6_witness :
    parseCell (strip (chars ("   "))) = Cell.na ∧
    parseCell (strip (chars (" -12.5 "))) = Cell.decN (-125) 1 :=
  ⟨c6_missing_values_and_types.1 (chars ("   ")) (by decide), by decide⟩

/-! ## Lemmas: URL construction -/

theorem digitChar_isDigit (k : Nat) (hk : k < 10) : isDigit (digitChar k) = true := by
  interval_cases k <;> decide

theorem natDigitsAux_digits (fuel : Nat) :
    ∀ n, ∀ c ∈ natDigitsAux fuel n, isDigit c = true := by
  induction fuel with
  | zero => intro n c hc; simp [natDigitsAux] at hc
  | succ f ih =>
      intro n c hc
      cases n with
      | zero => simp [natDigitsAux] at hc
      | succ k =>
          simp only [natDigitsAux] at hc
          rcases List.mem_append.mp hc with h | h
          · exact ih _ c h
          · have hc' : c = digitChar ((k + 1) % 10) := by simpa using h
            subst hc'
            exact digitChar_isDigit _ (Nat.mod_lt _ (by omega))

theorem natRepr_digits (n : Nat) : ∀ c ∈ natRepr n, isDigit c = true := by
  unfold natRepr
  split
  · intro c hc
    have : c = '0' := by simpa using hc
    subst this
    decide
  · exact natDigitsAux_digits n n

theorem pad2_digits (n : Nat) : ∀ c ∈ pad2 n, isDigit c = true := by
  unfold pad2
  split
  · intro c hc
    rcases List.mem_cons.mp hc with rfl | hc'
    · decide
    · exact natRepr_digits n c hc'
  · exact natRepr_digits n

theorem isDigit_ne_amp {c : Char} (h : isDigit c = true) : c ≠ '&' := by
  intro hc
  rw [hc] at h
  exact absurd h (by decide)

theorem pad2_length {n : Nat} (h : n ≤ 99) : (pad2 n).length = 2 := by
  interval_cases n <;> decide

theorem dropThroughQ_append {P : List Char} (h : ∀ c ∈ P, c ≠ '?') (Q : List Char) :
    dropThroughQ (P ++ '?' :: Q) = Q := by
  induction P with
  | nil => simp [dropThroughQ]
  | cons c P' ih =>
      rw [List.cons_append]
      unfold dropThroughQ
      rw [if_neg (h c (List.mem_cons_self c P'))]
      exact ih (fun x hx => h x (List.mem_cons_of_mem c hx))

theorem splitAmpAux_cons_of_ne {c : Char} (h : c ≠ '&') (B acc : List Char) :
    splitAmpAux (c :: B) acc = splitAmpAux B (c :: acc) := by
  conv_lhs => unfold splitAmpAux
  rw [if_neg h]

theorem splitAmpAux_no_amp {A : List Char} (h : ∀ c ∈ A, c ≠ '&') :
    ∀ acc, splitAmpAux A acc = [acc.reverse ++ A] := by
  induction A with
  | nil => intro acc; simp [splitAmpAux]
  | cons c A' ih =>
      intro acc
      rw [splitAmpAux_cons_of_ne (h c (List.mem_cons_self c A'))]
      rw [ih (fun x hx => h x (List.mem_cons_of_mem c hx))]
      simp

theorem splitAmpAux_append {A : List Char} (h : ∀ c ∈ A, c ≠ '&') (B : List Char) :
    ∀ acc, splitAmpAux (A ++ '&' :: B) acc = (acc.reverse ++ A) :: splitAmpAux B [] := by
  induction A with
  | nil =>
      intro acc
      rw [List.nil_append, List.append_nil]
      rfl
  | cons c A' ih =>
      intro acc
      rw [List.cons_append]
      rw [splitAmpAux_cons_of_ne (h c (List.mem_cons_self c A'))]
      rw [ih (fun x hx => h x (List.mem_cons_of_mem c hx))]
      simp

/-- C8 counterexample: the year is not always rendered as four digits — for
year 999 the YEAR query parameter of the constructed URL has three
characters. -/
theorem c8_counterexample :
    paramValue (buildUrl 999 1 1 0 76679 (chars ("naconf"))) (chars ("YEAR"))
      = some (chars ("999")) ∧
    (chars ("999")).length ≠ 4 :=
  ⟨rfl, by decide⟩

/-- C8 (amended): the constructed URL is the fixed archive endpoint with
query parameters: the region code, the literal TEXT%3ALIST format indicator,
the year in unpadded decimal, the month zero-padded to two digits, the
concatenated zero-padded day+hour token used for both FROM and TO, and the
station identifier; month, day, and hour render to exactly two digits each
for values below 100. -/
theorem c8_url_query_params (year month day hour st : Nat) (r : List Char)
    (hr : ∀ c ∈ r, c ≠ '&') :
    paramValue (buildUrl year month day hour st r) (chars ("region")) = some r ∧
    paramValue (buildUrl year month day hour st r) (chars ("TYPE")) =
      some (chars ("TEXT%3ALIST")) ∧
    paramValue (buildUrl year month day hour st r) (chars ("YEAR")) =
      some (natRepr year) ∧
    paramValue (buildUrl year month day hour st r) (chars ("MONTH")) =
      some (pad2 month) ∧
    paramValue (buildUrl year month day hour st r) (chars ("FROM")) =
      some (pad2 day ++ pad2 hour) ∧
    paramValue (buildUrl year month day hour st r) (chars ("TO")) =
      some (pad2 day ++ pad2 hour) ∧
    paramValue (buildUrl year month day hour st r) (chars ("STNM")) =
      some (natRepr st) ∧
    (chars ("https://weather.uwyo.edu/cgi-bin/sounding?")).isPrefixOf
      (buildUrl year month day hour st r) = true ∧
    (month ≤ 99 → (pad2 month).length = 2) ∧
    (day ≤ 99 → hour ≤ 99 → (pad2 day ++ pad2 hour).length = 4) := by
  have hdropQ : dropThroughQ (buildUrl year month day hour st r) =
      chars ("region=") ++ r ++ chars ("&TYPE=TEXT%3ALIST&YEAR=") ++ natRepr year ++
        chars ("&MONTH=") ++ pad2 month ++ chars ("&FROM=") ++
        (pad2 day ++ pad2 hour) ++ chars ("&TO=") ++ (pad2 day ++ pad2 hour) ++
        chars ("&STNM=") ++ natRepr st := by
    unfold buildUrl
    exact dropThroughQ_append (by decide) _
  have hQform : chars ("region=") ++ r ++ chars ("&TYPE=TEXT%3ALIST&YEAR=") ++
        natRepr year ++ chars ("&MONTH=") ++ pad2 month ++ chars ("&FROM=") ++
        (pad2 day ++ pad2 hour) ++ chars ("&TO=") ++ (pad2 day ++ pad2 hour) ++
        chars ("&STNM=") ++ natRepr st =
      (chars ("region=") ++ r) ++ '&' ::
        (chars ("TYPE=TEXT%3ALIST") ++ '&' ::
          ((chars ("YEAR=") ++ natRepr year) ++ '&' ::
            ((chars ("MONTH=") ++ pad2 month) ++ '&' ::
              ((chars ("FROM=") ++ (pad2 day ++ pad2 hour)) ++ '&' ::
                ((chars ("TO=") ++ (pad2 day ++ pad2 hour)) ++ '&' ::
                  (chars ("STNM=") ++ natRepr st)))))) := by
    rw [show chars ("&TYPE=TEXT%3ALIST&YEAR=") =
      '&' :: (chars ("TYPE=TEXT%3ALIST") ++ '&' :: chars ("YEAR=")) from rfl]
    rw [show chars ("&MONTH=") = '&' :: chars ("MONTH=") from rfl]
    rw [show chars ("&FROM=") = '&' :: chars ("FROM=") from rfl]
    rw [show chars ("&TO=") = '&' :: chars ("TO=") from rfl]
    rw [show chars ("&STNM=") = '&' :: chars ("STNM=") from rfl]
    simp [List.append_assoc, List.cons_append]
  have hregion : ∀ c ∈ chars ("region=") ++ r, c ≠ '&' := by
    intro c hc
    rcases List.mem_append.mp hc with h | h
    · exact (by decide : ∀ x ∈ chars ("region="), x ≠ '&') c h
    · exact hr c h
  have hyear : ∀ c ∈ chars ("YEAR=") ++ natRepr year, c ≠ '&' := by
    intro c hc
    rcases List.mem_append.mp hc with h | h
    · exact (by decide : ∀ x ∈ chars ("YEAR="), x ≠ '&') c h
    · exact isDigit_ne_amp (natRepr_digits year c h)
  have hmonth : ∀ c ∈ chars ("MONTH=") ++ pad2 month, c ≠ '&' := by
    intro c hc
    rcases List.mem_append.mp hc with h | h
    · exact (by decide : ∀ x ∈ chars ("MONTH="), x ≠ '&') c h
    · exact isDigit_ne_amp (pad2_digits month c h)
  have hfrom : ∀ c ∈ chars ("FROM=") ++ (pad2 day ++ pad2 hour), c ≠ '&' := by
    intro c hc
    rcases List.mem_append.mp hc with h | h
    · exact (by decide : ∀ x ∈ chars ("FROM="), x ≠ '&') c h
    · rcases List.mem_append.mp h with h2 | h2
      · exact isDigit_ne_amp (pad2_digits day c h2)
      · exact isDigit_ne_amp (pad2_digits hour c h2)
  have hto : ∀ c ∈ chars ("TO=") ++ (pad2 day ++ pad2 hour), c ≠ '&' := by
    intro c hc
    rcases List.mem_append.mp hc with h | h
    · exact (by decide : ∀ x ∈ chars ("TO="), x ≠ '&') c h
    · rcases List.mem_append.mp h with h2 | h2
      · exact isDigit_ne_amp (pad2_digits day c h2)
      · exact isDigit_ne_amp (pad2_digits hour c h2)
  have hstnm : ∀ c ∈ chars ("STNM=") ++ natRepr st, c ≠ '&' := by
    intro c hc
    rcases List.mem_append.mp hc with h | h
    · exact (by decide : ∀ x ∈ chars ("STNM="), x ≠ '&') c h
    · exact isDigit_ne_amp (natRepr_digits st c h)
  have htype : ∀ c ∈ chars ("TYPE=TEXT%3ALIST"), c ≠ '&' := by decide
  have hsplit : splitAmp (dropThroughQ (buildUrl year month day hour st r)) =
      [chars ("region=") ++ r, chars ("TYPE=TEXT%3ALIST"),
       chars ("YEAR=") ++ natRepr year, chars ("MONTH=") ++ pad2 month,
       chars ("FROM=") ++ (pad2 day ++ pad2 hour),
       chars ("TO=") ++ (pad2 day ++ pad2 hour),
       chars ("STNM=") ++ natRepr st] := by
    rw [hdropQ, hQform]
    unfold splitAmp
    rw [splitAmpAux_append hregion _ []]
    rw [splitAmpAux_append htype _ []]
    rw [splitAmpAux_append hyear _ []]
    rw [splitAmpAux_append hmonth _ []]
    rw [splitAmpAux_append hfrom _ []]
    rw [splitAmpAux_append hto _ []]
    rw [splitAmpAux_no_amp hstnm []]
    simp
  refine ⟨?_, ?_, ?_, ?_, ?_, ?_, ?_, rfl, fun hm => pad2_length hm, ?_⟩
  · unfold paramValue
    rw [hsplit]
    rfl
  · unfold paramValue
    rw [hsplit]
    rfl
  · unfold paramValue
    rw [hsplit]
    rfl
  · unfold paramValue
    rw [hsplit]
    rfl
  · unfold paramValue
    rw [hsplit]
    rfl
  · unfold paramValue
    rw [hsplit]
    rfl
  · unfold paramValue
    rw [hsplit]
    rfl
  · intro hd hh
    rw [List.length_append, pad2_length hd, pad2_length hh]

/-- C8 witness: the amended statement at a concrete request — the FROM token
is the zero-padded day+hour pair. -/
theorem c8_witness :
    paramValue (buildUrl 2023 5 7 12 76679 (chars ("naconf"))) (chars ("FROM"))
      = some (pad2 7 ++ pad2 12) ∧
    pad2 7 ++ pad2 12 = chars ("0712") :=
  ⟨(c8_url_query_params 2023 5 7 12 76679 (chars ("naconf"))
      (by decide)).2.2.2.2.1, by decide⟩

/-- C9 witness: the two runs on the `w1` fixture agree componentwise. -/
theorem c9_witness :
    T1.rows = T1.rows ∧ T1.colnames = T1.colnames ∧ T1.units = T1.units :=
  (c9_parse_deterministic (some w1) 2).2 T1 T1 w1_parses w1_parses

/-- C10 witness: the available `w4` response has a one-line block, so the
default header index 2 hits the raw index error. -/
theorem c10_witness : get_wyoming (some w4) 2 = Except.error WErr.indexErr :=
  c10_index_error (some w4) 2 w4 (chars ("only one line")) rfl (by decide) rfl
    (by decide)

end SkewtPy
